import Mathlib

/-!
Verification of the pdf-to-audio browser utility.

This file shallowly embeds the string-processing, playback-position,
library-store and account modules of the program and proves (or refutes)
the specification's claims about them.

Modelling conventions:
* JS strings are lists of characters (`Str`).
* JS numbers are exact rationals (`ℚ`).  Where a claim's truth depends on
  finer number semantics, two refinements are used: `jsDivOpt` returns
  `none` for the non-finite result of dividing by zero (JS `NaN` or
  `±Infinity`), and `roundB64` models IEEE binary64 round-to-nearest-even,
  which JS applies after every arithmetic operation.
* Writes to the browser's local storage are `Option` values: `none` means
  the store was not written at all.
-/

/-- JS strings, modelled as lists of UTF-16 code points. -/
abbrev Str := List Char

/-- Newline test, the character class of the page-splitting regular
expression `/\n\n+/`. -/
def isNl (c : Char) : Bool := c == '\n'

/-- Whitespace recognised by `String.prototype.trim` (ASCII subset). -/
def isWs (c : Char) : Bool :=
  c == ' ' || c == '\t' || c == '\n' || c == '\r' || c == '\x0b' || c == '\x0c'

/-- Model of `String.prototype.trim`: drop whitespace from the front, then
from the back. -/
def jsTrim (s : Str) : Str := (s.dropWhile isWs).rdropWhile isWs

/-- JS `ToIntegerOrInfinity`: truncation of a finite number toward zero. -/
def jsTrunc (q : ℚ) : ℤ := if 0 ≤ q then ⌊q⌋ else -⌊-q⌋

/-- Model of `String.prototype.slice` with one argument: a negative start
counts from the end, a start past the end yields the empty string. -/
def jsSliceFrom (s : Str) (q : ℚ) : Str :=
  let n := jsTrunc q
  if n < 0 then s.drop ((s.length : ℤ) + n).toNat
  else s.drop (min n.toNat s.length)

/-- The finiteness-relevant part of JS division: `none` stands for the
non-finite result produced when the divisor is zero (`NaN` for `0/0`,
`±Infinity` otherwise). -/
def jsDivOpt (a b : ℚ) : Option ℚ := if b = 0 then none else some (a / b)

/-! ### TTSManager (src/scripts/tts-manager.js) -/

/-- The playback-relevant state of `TTSManager`. -/
structure TTSState where
  currentPosition : ℚ
  textLength : ℕ
  isPlaying : Bool
  synthPaused : Bool
deriving DecidableEq

/-- Model of `TTSManager.loadText`. -/
def loadText (s : TTSState) (text : Str) : TTSState :=
  { s with textLength := text.length, currentPosition := 0 }

/-- Model of `TTSManager.setPosition`: clamp the position into `[0, textLength]`
and report progress `(currentPosition / textLength) * 100` to the progress
bar.  The report is `none` (JS `NaN`) when the loaded text is empty. -/
def setPosition (s : TTSState) (position : ℚ) : TTSState × Option ℚ :=
  let newPos := max 0 (min position (s.textLength : ℚ))
  ({ s with currentPosition := newPos },
   (jsDivOpt newPos (s.textLength : ℚ)).map (fun q => q * 100))

/-- Model of `TTSManager.seek`: advance by `textLength * (amount / 100)` characters
through `setPosition`. -/
def seek (s : TTSState) (amount : ℚ) : TTSState × Option ℚ :=
  setPosition s (s.currentPosition + (s.textLength : ℚ) * (amount / 100))

/-- The `utterance.onboundary` handler: on a word or sentence boundary
event, store the event's character index as the current position and
report progress `(currentPosition / textLength) * 100`.  Other events
report nothing. -/
def onBoundary (s : TTSState) (eventName : Str) (charIndex : ℚ) :
    TTSState × Option ℚ :=
  if eventName = "word".data ∨ eventName = "sentence".data then
    ({ s with currentPosition := charIndex },
     (jsDivOpt charIndex (s.textLength : ℚ)).map (fun q => q * 100))
  else (s, none)

/-- The possible effects of `TTSManager.togglePlayPause`. -/
inductive TTSEffect where
  | pauseSpeech : TTSEffect
  | resumeSpeech : TTSEffect
  | speak : Str → TTSEffect
  | keepIdle : TTSEffect
deriving DecidableEq

/-- Model of `TTSManager.togglePlayPause`: pause when playing, resume when the
synthesiser is paused, otherwise speak the suffix of the extracted text
from the current position (when that text is non-empty). -/
def togglePlayPause (s : TTSState) (extractedText : Str) : TTSEffect :=
  if s.isPlaying then .pauseSpeech
  else if s.synthPaused then .resumeSpeech
  else if extractedText ≠ [] then .speak (jsSliceFrom extractedText s.currentPosition)
  else .keepIdle

/-! ### PDFHandler: extraction, progress mapping (src/unnamed/part_001) -/

/-- Model of `PDFHandler.extractText`: the page loop appends each page's text plus a
blank-line separator (`'\n\n'`) to the accumulated text. -/
def extractText (pageTexts : List Str) : Str :=
  pageTexts.foldl (fun acc t => acc ++ t ++ ('\n' :: '\n' :: [])) []

/-- The spec's description of page joining, for comparison with
`extractText`: a blank-line separator between consecutive pages and none
trailing. -/
def joinPages : List Str → Str
  | [] => []
  | [t] => t
  | t :: rest => t ++ ('\n' :: '\n' :: []) ++ joinPages rest

/-- Model of `PDFHandler.getProgressAtPosition` (exact arithmetic): `0` for empty
text, else `(position / length) * 100`. -/
def getProgressAtPosition (text : Str) (position : ℚ) : ℚ :=
  if text.length = 0 then 0 else (position / (text.length : ℚ)) * 100

/-- Model of `PDFHandler.getPositionAtProgress` (exact arithmetic):
`Math.floor((progress / 100) * length)`. -/
def getPositionAtProgress (text : Str) (progress : ℚ) : ℤ :=
  ⌊progress / 100 * (text.length : ℚ)⌋

/-! ### IEEE binary64 refinement of JS number arithmetic

JS numbers are binary64 doubles: every arithmetic operation rounds its
exact result to 53 significant bits, round-to-nearest, ties to even.  The
model below covers the normal range (ample for character counts and
percentages). -/

/-- The power `2 ^ k` as a rational, for integer `k`. -/
def pow2 (k : ℤ) : ℚ := (2 : ℚ) ^ k

/-- Round a rational to the nearest integer, ties to even. -/
def rne (x : ℚ) : ℤ :=
  let f := ⌊x⌋
  if x - (f : ℚ) < 1 / 2 then f
  else if (1 : ℚ) / 2 < x - (f : ℚ) then f + 1
  else if f % 2 = 0 then f else f + 1

/-- Round a rational to the nearest IEEE binary64 value (normal range):
scale by the binade exponent, round the 53-bit significand to nearest
(ties to even), scale back. -/
def roundB64 (q : ℚ) : ℚ :=
  if q = 0 then 0
  else if 0 < q then
    (rne (q * pow2 (52 - Int.log 2 q)) : ℚ) * pow2 (Int.log 2 q - 52)
  else
    -((rne (-q * pow2 (52 - Int.log 2 (-q))) : ℚ) * pow2 (Int.log 2 (-q) - 52))

/-- JS binary64 division (finite operands, nonzero divisor). -/
def jsDiv64 (a b : ℚ) : ℚ := roundB64 (a / b)

/-- JS binary64 multiplication. -/
def jsMul64 (a b : ℚ) : ℚ := roundB64 (a * b)

/-- Model of `PDFHandler.getProgressAtPosition` under binary64 arithmetic. -/
def getProgressAtPosition64 (len : ℕ) (position : ℚ) : ℚ :=
  if len = 0 then 0 else jsMul64 (jsDiv64 position (len : ℚ)) 100

/-- Model of `PDFHandler.getPositionAtProgress` under binary64 arithmetic. -/
def getPositionAtProgress64 (len : ℕ) (progress : ℚ) : ℤ :=
  ⌊jsMul64 (jsDiv64 progress 100) (len : ℚ)⌋

/-! ### Page reconstruction: `fileData.text.split(/\n\n+/)` in
`PDFHandler.loadFromLibrary` -/

/-- One pass of `split(/\n\n+/)`: `acc` holds the current piece reversed;
a run of two or more newlines ends the current piece and is consumed
whole. -/
def splitBlankAux : Str → Str → List Str
  | [], acc => [acc.reverse]
  | [c], acc => [(c :: acc).reverse]
  | c1 :: c2 :: rest, acc =>
    if c1 = '\n' ∧ c2 = '\n' then
      acc.reverse :: splitBlankAux (rest.dropWhile isNl) []
    else
      splitBlankAux (c2 :: rest) (c1 :: acc)
termination_by l _ => l.length
decreasing_by
  · have h : (rest.dropWhile isNl).length ≤ rest.length := by
      induction rest with
      | nil => simp
      | cons a t ih =>
        rw [List.dropWhile_cons]
        split
        · exact Nat.le_trans ih (Nat.le_succ _)
        · exact Nat.le_refl _
    simp only [List.length_cons]
    omega
  · simp only [List.length_cons]
    omega

/-- Model of `String.prototype.split(/\n\n+/)`. -/
def splitBlank (s : Str) : List Str := splitBlankAux s []

/-- The page texts `PDFHandler.loadFromLibrary` reconstructs: the cached
text split on blank-line runs, each piece trimmed. -/
def reconstructPages (text : Str) : List Str := (splitBlank text).map jsTrim

/-- The `totalPages` field after `loadFromLibrary`: the number of
reconstructed pages. -/
def reconstructTotalPages (text : Str) : ℕ := (reconstructPages text).length

/-- No blank line: the text has no two consecutive newlines. -/
def noBlankB : Str → Bool
  | [] => true
  | [_] => true
  | c1 :: c2 :: rest => !(c1 == '\n' && c2 == '\n') && noBlankB (c2 :: rest)

/-! ### LibraryManager (src/scripts/library-manager.js) and the
App.processFile gate (src/unnamed/part_000) -/

/-- A bookmark: progress offset plus a short text snippet.  (The generated
bookmark id and `createdAt` timestamp are outside the model.) -/
structure Bookmark where
  position : ℚ
  snippet : Str
deriving DecidableEq

/-- A library item (the glossary's "Library item"): identifier, cached
extracted text, last progress offset, bookmarks.  (Original filename,
sizes and dates are outside the model.) -/
structure LibItem where
  id : Str
  text : Str
  progress : ℚ
  bookmarks : List Bookmark
deriving DecidableEq

/-- Replace the item `findIndex` locates (the first with the given id). -/
def replaceFirst : List LibItem → LibItem → List LibItem
  | [], _ => []
  | it :: rest, fd => if it.id = fd.id then fd :: rest else it :: replaceFirst rest fd

/-- Model of `LibraryManager.addFile`: update the existing entry with the same id,
or prepend (`unshift`) the new one, then save.  No count limit is checked
here. -/
def addFile (lib : List LibItem) (fd : LibItem) : List LibItem :=
  if lib.any (fun it => it.id == fd.id) then replaceFirst lib fd else fd :: lib

/-- Model of `LibraryManager.canAddFile`: `remaining = maxItems - library.length`
must be positive, with `maxItems = Infinity` for premium (so always
addable) and `MAX_FREE_ITEMS = 5` otherwise. -/
def canAddFile (premium : Bool) (lib : List LibItem) : Bool :=
  if premium then true else lib.length < 5

/-- The library-add path of `App.processFile`: a failed `canAddFile`
check aborts (login prompt, or free-tier warning); the file is added when
the check passes or the user is premium. -/
def processFileAdd (premium loggedIn : Bool) (lib : List LibItem) (fd : LibItem) :
    List LibItem :=
  let canAdd := canAddFile premium lib
  if !canAdd && !loggedIn then lib
  else if !canAdd && !premium then lib
  else if canAdd || premium then addFile lib fd
  else lib

/-- Model of `LibraryManager.removeFile`: keep the items with a different id; save
and report success only when the length changed.  First component: the
write to storage (`none` = not written at all). -/
def removeFile (lib : List LibItem) (id : Str) : Option (List LibItem) × Bool :=
  let filtered := lib.filter (fun it => it.id != id)
  if filtered.length ≠ lib.length then (some filtered, true) else (none, false)

/-- Append a bookmark to the first item with the given id (the object
aliased by `library.find`). -/
def pushBookmark : List LibItem → Str → Bookmark → List LibItem
  | [], _, _ => []
  | it :: rest, id, bm =>
    if it.id = id then { it with bookmarks := it.bookmarks ++ [bm] } :: rest
    else it :: pushBookmark rest id bm

/-- Model of `LibraryManager.addBookmark`: fail when the id is absent; fail without
writing when a non-premium user already has 3 bookmarks on that file;
otherwise append the bookmark and save. -/
def addBookmark (premium : Bool) (lib : List LibItem) (id : Str) (bm : Bookmark) :
    Option (List LibItem) × Bool :=
  match lib.find? (fun it => it.id == id) with
  | none => (none, false)
  | some f =>
    if premium = false ∧ 3 ≤ f.bookmarks.length then (none, false)
    else (some (pushBookmark lib id bm), true)

/-! ### AuthManager (src/unnamed/part_001, second module) -/

/-- A stored user account.  The `password` field holds the checksum
produced by `hashPassword` (its hexadecimal rendering is abstracted to
the integer value).  Generated id and dates are outside the model. -/
structure User where
  name : Str
  email : Str
  password : ℤ
  isPremium : Bool
deriving DecidableEq

/-- Truncation to a signed 32-bit integer (JS `<<` and `&` coercion). -/
def toInt32 (n : ℤ) : ℤ := (n + 2 ^ 31) % 2 ^ 32 - 2 ^ 31

/-- Model of `AuthManager.hashPassword`: `hash = ((hash << 5) - hash) + charCode`
folded over the password's UTF-16 code units, truncated to 32 bits at
each step (the `hash & hash` line). -/
def hashPassword (password : Str) : ℤ :=
  password.foldl (fun h c => toInt32 (toInt32 (h * 32) - h + (c.toNat : ℤ))) 0

/-- Model of `String.prototype.toLowerCase`, defined on basic latin letters. -/
def strLower (s : Str) : Str := s.map Char.toLower

/-- Model of `AuthManager.findUserByEmail`: the first user whose lowercased email
matches the lowercased query. -/
def findUserByEmail (users : List User) (email : Str) : Option User :=
  users.find? (fun u => strLower u.email == strLower email)

/-- Model of `AuthManager.register`: reject an email already present, otherwise
append a user with trimmed name, trimmed lowercased email and hashed
password, reporting success.  (Auto-login is outside the model.) -/
def register (users : List User) (name email password : Str) : List User × Bool :=
  if (findUserByEmail users email).isSome then (users, false)
  else
    (users ++ [{ name := jsTrim name, email := strLower (jsTrim email),
                 password := hashPassword password, isPremium := false }], true)

/-- Model of `AuthManager.login`: find the account by email, then verify the
password checksum; `some user` is success, `none` is failure. -/
def login (users : List User) (email password : Str) : Option User :=
  match findUserByEmail users email with
  | none => none
  | some u => if hashPassword password = u.password then some u else none

/-- The value `Int.log 2` is characterised by the binade bounds. -/
theorem intLog2_eq {q : ℚ} {k : ℤ} (hq : 0 < q)
    (h1 : (2 : ℚ) ^ k ≤ q) (h2 : q < (2 : ℚ) ^ (k + 1)) : Int.log 2 q = k := by
  have hb : (1 : ℕ) < 2 := one_lt_two
  have ha : ((2 : ℕ) : ℚ) ^ Int.log 2 q ≤ q := Int.zpow_log_le_self hb hq
  have hc : q < ((2 : ℕ) : ℚ) ^ (Int.log 2 q + 1) := Int.lt_zpow_succ_log_self hb q
  have h2q : (1 : ℚ) < 2 := one_lt_two
  push_cast at ha hc
  have hk1 : (2 : ℚ) ^ k < (2 : ℚ) ^ (Int.log 2 q + 1) := lt_of_le_of_lt h1 hc
  have hk2 : (2 : ℚ) ^ Int.log 2 q < (2 : ℚ) ^ (k + 1) := lt_of_le_of_lt ha h2
  rw [zpow_lt_zpow_iff_right₀ h2q] at hk1 hk2
  omega

/-- Evaluation rule for `roundB64` on a positive value with known binade. -/
theorem roundB64_pos_eq {q : ℚ} {k : ℤ} (hq : 0 < q)
    (h1 : (2 : ℚ) ^ k ≤ q) (h2 : q < (2 : ℚ) ^ (k + 1)) :
    roundB64 q = (rne (q * pow2 (52 - k)) : ℚ) * pow2 (k - 52) := by
  rw [roundB64, if_neg hq.ne', if_pos hq, intLog2_eq hq h1 h2]

/-- Evaluation rule for `rne` when the fractional part is below one half. -/
theorem rne_eq_of {x : ℚ} (f : ℤ) (hf : ⌊x⌋ = f) (h : x - (f : ℚ) < 1 / 2) :
    rne x = f := by
  rw [rne]
  simp only [hf, if_pos h]

/-! ### Claim theorems -/

/-- C1 counterexample: with an empty loaded text (`L = 0`),
`TTSManager.setPosition 0` computes `(0 / 0) * 100`, i.e. JS `NaN`
(modelled as `none`) — not the claimed percentage between 0 and 100. -/
theorem setPosition_progress_nan_on_empty :
    (setPosition ⟨0, 0, false, false⟩ 0).2 = none := by
  simp [setPosition, jsDivOpt]

/-- C1 (amended): for a loaded text of positive length `L` and any offset
`0 ≤ p ≤ L`, the progress reported by `PDFHandler.getProgressAtPosition`,
by `TTSManager.setPosition` and by the boundary handler equals
`(p / L) * 100`, a percentage between 0 and 100; when `L = 0` only
`getProgressAtPosition` reports 0, while `setPosition` and the boundary
handler divide zero by zero (JS `NaN`, refuting the original claim's
"including when L = 0"). -/
theorem progress_formula (text : Str) (s : TTSState) (p : ℚ)
    (hlen : s.textLength = text.length) (hL : 0 < text.length)
    (h0 : 0 ≤ p) (hp : p ≤ (text.length : ℚ)) :
    getProgressAtPosition text p = p / (text.length : ℚ) * 100
    ∧ (setPosition s p).2 = some (p / (text.length : ℚ) * 100)
    ∧ (onBoundary s "word".data p).2 = some (p / (text.length : ℚ) * 100)
    ∧ 0 ≤ p / (text.length : ℚ) * 100
    ∧ p / (text.length : ℚ) * 100 ≤ 100
    ∧ ∀ t : Str, t.length = 0 → getProgressAtPosition t p = 0 := by
  have hL0 : (0 : ℚ) < (text.length : ℚ) := by exact_mod_cast hL
  have hne : (text.length : ℚ) ≠ 0 := ne_of_gt hL0
  refine ⟨?_, ?_, ?_, ?_, ?_, ?_⟩
  · rw [getProgressAtPosition, if_neg hL.ne']
  · have hclamp : max 0 (min p ((text.length : ℚ))) = p := by
      rw [min_eq_left hp, max_eq_right h0]
    simp [setPosition, jsDivOpt, hlen, hclamp, hne]
  · simp [onBoundary, jsDivOpt, hlen, hne]
  · positivity
  · have h1 : p / (text.length : ℚ) ≤ 1 := by
      rw [div_le_one hL0]; exact hp
    calc p / (text.length : ℚ) * 100 ≤ 1 * 100 := by
          exact mul_le_mul_of_nonneg_right h1 (by norm_num)
      _ = 100 := by norm_num
  · intro t ht
    simp [getProgressAtPosition, ht]

/-- C1 witness: the amended statement at `text = "abcd"`, `p = 1`. -/
theorem progress_formula_witness :
    getProgressAtPosition "abcd".data 1 = 25
    ∧ (setPosition ⟨0, 4, false, false⟩ 1).2 = some 25 := by
  have h := progress_formula "abcd".data ⟨0, 4, false, false⟩ 1
    (by norm_num) (by norm_num) (by norm_num) (by norm_num)
  obtain ⟨h1, h2, -, -, -, -⟩ := h
  norm_num at h1 h2
  exact ⟨h1, h2⟩

/-- C2 (amended): under exact arithmetic the offset-to-percentage mapping
is invertible on exact offsets: for text of positive length `L` and any
integer offset `0 ≤ p ≤ L`,
`getPositionAtProgress (getProgressAtPosition p) = p`.  Under the
program's actual IEEE binary64 arithmetic this fails (see the binary64
counterexample at `L = 3`, `p = 1`). -/
theorem progress_roundtrip_exact (text : Str) (p : ℤ)
    (hL : 0 < text.length) (h0 : 0 ≤ p) (hp : p ≤ (text.length : ℤ)) :
    getPositionAtProgress text (getProgressAtPosition text (p : ℚ)) = p := by
  have hL0 : (0 : ℚ) < (text.length : ℚ) := by exact_mod_cast hL
  rw [getProgressAtPosition, if_neg hL.ne', getPositionAtProgress]
  have h : (p : ℚ) / (text.length : ℚ) * 100 / 100 * (text.length : ℚ) = (p : ℚ) := by
    field_simp
    ring
  rw [h, Int.floor_intCast]

/-- C2 witness: the amended statement at `text = "ab"`, `p = 1`. -/
theorem progress_roundtrip_exact_witness :
    getPositionAtProgress "ab".data (getProgressAtPosition "ab".data 1) = 1 := by
  have h := progress_roundtrip_exact "ab".data 1 (by norm_num) (by norm_num) (by norm_num)
  exact_mod_cast h

/-- C2 counterexample: under the program's binary64 arithmetic the
round trip is not the identity: for text length `L = 3` and offset
`p = 1`, `getProgressAtPosition` computes the double nearest to `100/3`
and `getPositionAtProgress` maps it back to `0`, not `1`. -/
theorem progress_roundtrip_b64_cex :
    getPositionAtProgress64 3 (getProgressAtPosition64 3 1) = 0 := by
  have p54 : pow2 (52 - -2) = 18014398509481984 := by norm_num [pow2]
  have pm54 : pow2 (-2 - 52) = 1 / 18014398509481984 := by norm_num [pow2]
  have p47 : pow2 (52 - 5) = 140737488355328 := by norm_num [pow2]
  have pm47 : pow2 (5 - 52) = 1 / 140737488355328 := by norm_num [pow2]
  have p53 : pow2 (52 - -1) = 9007199254740992 := by norm_num [pow2]
  have pm53 : pow2 (-1 - 52) = 1 / 9007199254740992 := by norm_num [pow2]
  have e1 : jsDiv64 1 3 = 6004799503160661 / 18014398509481984 := by
    rw [jsDiv64, roundB64_pos_eq (k := -2) (by norm_num) (by norm_num) (by norm_num),
      p54, pm54, rne_eq_of 6004799503160661 (by norm_num) (by norm_num)]
    norm_num
  have e2 : jsMul64 (6004799503160661 / 18014398509481984) 100
      = 2345624805922133 / 70368744177664 := by
    rw [jsMul64, roundB64_pos_eq (k := 5) (by norm_num) (by norm_num) (by norm_num),
      p47, pm47, rne_eq_of 4691249611844266 (by norm_num) (by norm_num)]
    norm_num
  have e3 : jsDiv64 (2345624805922133 / 70368744177664) 100
      = 1501199875790165 / 4503599627370496 := by
    rw [jsDiv64, roundB64_pos_eq (k := -2) (by norm_num) (by norm_num) (by norm_num),
      p54, pm54, rne_eq_of 6004799503160660 (by norm_num) (by norm_num)]
    norm_num
  have e4 : jsMul64 (1501199875790165 / 4503599627370496) 3
      = 4503599627370495 / 4503599627370496 := by
    rw [jsMul64, roundB64_pos_eq (k := -1) (by norm_num) (by norm_num) (by norm_num),
      p53, pm53, rne_eq_of 9007199254740990 (by norm_num) (by norm_num)]
    norm_num
  have e5 : getProgressAtPosition64 3 1 = 2345624805922133 / 70368744177664 := by
    rw [getProgressAtPosition64, if_neg (by norm_num)]
    push_cast
    rw [e1, e2]
  rw [e5, getPositionAtProgress64]
  push_cast
  rw [e3, e4]
  norm_num

/-- C8: whenever `togglePlayPause` runs while not playing and the
synthesiser is not paused and the extracted text is non-empty, the text
handed to the speech synthesiser is exactly
`extractedText.slice(currentPosition)`, the remaining suffix from the
current character offset. -/
theorem togglePlayPause_speaks_suffix (s : TTSState) (text : Str)
    (h1 : s.isPlaying = false) (h2 : s.synthPaused = false) (h3 : text ≠ []) :
    togglePlayPause s text = .speak (jsSliceFrom text s.currentPosition) := by
  simp [togglePlayPause, h1, h2, h3]

/-- C8 witness: at position 1 in `"abc"` the synthesiser is handed the
suffix `"bc"`. -/
theorem togglePlayPause_speaks_suffix_witness :
    togglePlayPause ⟨1, 3, false, false⟩ "abc".data = .speak "bc".data := by
  have h := togglePlayPause_speaks_suffix ⟨1, 3, false, false⟩ "abc".data rfl rfl (by simp)
  rw [h]
  norm_num [jsSliceFrom, jsTrunc]

/-- C9: `setPosition` stores exactly the clamped position
`max 0 (min position textLength)`, so `0 ≤ currentPosition ≤ textLength`
holds after every `setPosition`, and also after every `seek` (which
funnels through `setPosition`). -/
theorem setPosition_clamps (s : TTSState) (n : ℚ) :
    (setPosition s n).1.currentPosition = max 0 (min n (s.textLength : ℚ))
    ∧ 0 ≤ (setPosition s n).1.currentPosition
    ∧ (setPosition s n).1.currentPosition ≤ (s.textLength : ℚ)
    ∧ ∀ amount : ℚ, 0 ≤ (seek s amount).1.currentPosition
        ∧ (seek s amount).1.currentPosition ≤ (s.textLength : ℚ) := by
  refine ⟨rfl, le_max_left _ _, ?_, fun amount => ⟨le_max_left _ _, ?_⟩⟩
  · simp only [setPosition]
    have h : min n (s.textLength : ℚ) ≤ (s.textLength : ℚ) := min_le_right _ _
    exact max_le (by positivity) h
  · simp only [seek, setPosition]
    exact max_le (by positivity) (min_le_right _ _)

/-- The helper `replaceFirst` preserves the library's length. -/
theorem replaceFirst_length (lib : List LibItem) (fd : LibItem) :
    (replaceFirst lib fd).length = lib.length := by
  induction lib with
  | nil => rfl
  | cons it rest ih =>
    rw [replaceFirst]
    split
    · rfl
    · simp only [List.length_cons, ih]

/-- A single gated add keeps a free library within the 5-item ceiling. -/
theorem processFileAdd_free_le (loggedIn : Bool) (lib : List LibItem)
    (fd : LibItem) (h : lib.length ≤ 5) :
    (processFileAdd false loggedIn lib fd).length ≤ 5 := by
  by_cases hc : lib.length < 5
  · have hca : canAddFile false lib = true := by simp [canAddFile, hc]
    have heq : processFileAdd false loggedIn lib fd = addFile lib fd := by
      simp [processFileAdd, hca]
    rw [heq, addFile]
    split
    · rw [replaceFirst_length]; exact h
    · simp only [List.length_cons]; omega
  · have hca : canAddFile false lib = false := by simp [canAddFile, hc]
    have heq : processFileAdd false loggedIn lib fd = lib := by
      cases loggedIn <;> simp [processFileAdd, hca]
    rw [heq]; exact h

/-- C3 (amended): the item-count ceiling is enforced by the
`App.processFile` gate, not by `addFile` itself.  Starting from a library
of at most `MAX_FREE_ITEMS = 5` items, any sequence of gated adds with the
premium flag false keeps the library at 5 items or fewer; with the premium
flag true the gate never blocks (`processFileAdd` always performs the
`addFile`), so there is no ceiling.  Direct `addFile` calls are unbounded
(see the counterexample). -/
theorem processFile_free_ceiling (loggedIn : Bool) (lib : List LibItem)
    (fds : List LibItem) (h : lib.length ≤ 5) :
    (fds.foldl (processFileAdd false loggedIn) lib).length ≤ 5
    ∧ ∀ (lib2 : List LibItem) (fd : LibItem),
        processFileAdd true loggedIn lib2 fd = addFile lib2 fd := by
  constructor
  · induction fds generalizing lib with
    | nil => exact h
    | cons fd rest ih =>
      rw [List.foldl_cons]
      exact ih _ (processFileAdd_free_le loggedIn lib fd h)
  · intro lib2 fd
    simp [processFileAdd, canAddFile]

/-- C3 witness: six gated adds from an empty free library stay within the
ceiling. -/
theorem processFile_free_ceiling_witness :
    (([⟨"1".data, [], 0, []⟩, ⟨"2".data, [], 0, []⟩, ⟨"3".data, [], 0, []⟩,
       ⟨"4".data, [], 0, []⟩, ⟨"5".data, [], 0, []⟩,
       ⟨"6".data, [], 0, []⟩] : List LibItem).foldl
        (processFileAdd false false) []).length ≤ 5 :=
  (processFile_free_ceiling false [] _ (by simp)).1

/-- C3 counterexample: `LibraryManager.addFile` itself enforces no
ceiling — six direct `addFile` calls with distinct ids, premium flag
false throughout, leave six items in the store. -/
theorem addFile_no_ceiling_cex :
    (([⟨"1".data, [], 0, []⟩, ⟨"2".data, [], 0, []⟩, ⟨"3".data, [], 0, []⟩,
       ⟨"4".data, [], 0, []⟩, ⟨"5".data, [], 0, []⟩,
       ⟨"6".data, [], 0, []⟩] : List LibItem).foldl addFile []).length = 6 := by
  decide

/-- C10: `removeFile` returns `true` exactly when some stored item has the
given id; on success the write keeps precisely the items with a different
id, unchanged and in their original order; on failure nothing is written
to storage. -/
theorem removeFile_spec (lib : List LibItem) (id : Str) :
    ((removeFile lib id).2 = true ↔ ∃ it ∈ lib, it.id = id)
    ∧ ((removeFile lib id).2 = true →
        (removeFile lib id).1 = some (lib.filter (fun it => it.id != id)))
    ∧ ((removeFile lib id).2 = false → (removeFile lib id).1 = none) := by
  have hiff : ((lib.filter (fun it => it.id != id)).length = lib.length)
      ↔ ∀ it ∈ lib, it.id ≠ id := by
    rw [List.filter_length_eq_length]
    constructor
    · intro hall it hm
      simpa using hall it hm
    · intro hall it hm
      simpa using hall it hm
  by_cases h : (lib.filter (fun it => it.id != id)).length = lib.length
  · have hr : removeFile lib id = (none, false) := by
      rw [removeFile]
      simp only [h, ne_eq, not_true_eq_false, if_false]
    rw [hr]
    refine ⟨?_, ?_, ?_⟩
    · constructor
      · intro hfalse; exact (Bool.false_ne_true hfalse).elim
      · rintro ⟨it, hm, hid⟩
        exact ((hiff.mp h it hm) hid).elim
    · intro hfalse; exact (Bool.false_ne_true hfalse).elim
    · intro _; rfl
  · have hr : removeFile lib id
        = (some (lib.filter (fun it => it.id != id)), true) := by
      rw [removeFile]
      simp only [ne_eq, h, not_false_eq_true, if_true]
    rw [hr]
    refine ⟨?_, fun _ => rfl, ?_⟩
    · constructor
      · intro _
        by_contra hno
        push_neg at hno
        exact h (hiff.mpr hno)
      · intro _; rfl
    · intro hfalse; exact absurd hfalse (by simp)

/-- C10 witness: removing the only item succeeds and writes the empty
library; its id is gone and the flag is `true`. -/
theorem removeFile_spec_witness :
    removeFile [⟨"a".data, [], 0, []⟩] "a".data
      = (some [], true) := by
  obtain ⟨h1, h2, -⟩ := removeFile_spec [(⟨"a".data, [], 0, []⟩ : LibItem)] "a".data
  have ht : (removeFile [(⟨"a".data, [], 0, []⟩ : LibItem)] "a".data).2 = true :=
    h1.mpr ⟨⟨"a".data, [], 0, []⟩, by simp, rfl⟩
  have hw := h2 ht
  have hfil : ([(⟨"a".data, [], 0, []⟩ : LibItem)].filter
      (fun it => it.id != "a".data)) = [] := by
    simp
  rw [hfil] at hw
  exact Prod.ext_iff.mpr ⟨hw, ht⟩

/-- The helper `pushBookmark` rewrites exactly the first item with the given id,
appending the bookmark to its list and leaving everything else in place. -/
theorem pushBookmark_append (bm : Bookmark) (id : Str) :
    ∀ (pre : List LibItem) (f : LibItem) (post : List LibItem),
      (∀ x ∈ pre, x.id ≠ id) → f.id = id →
      pushBookmark (pre ++ f :: post) id bm
        = pre ++ { f with bookmarks := f.bookmarks ++ [bm] } :: post := by
  intro pre
  induction pre with
  | nil =>
    intro f post _ hf
    simp only [List.nil_append, pushBookmark, if_pos hf]
  | cons x pre ih =>
    intro f post hpre hf
    have hx : x.id ≠ id := hpre x (by simp)
    simp only [List.cons_append, pushBookmark, if_neg hx]
    show x :: pushBookmark (pre ++ f :: post) id bm = _
    rw [ih f post (fun y hy => hpre y (by simp [hy])) hf]

/-- C4: `addBookmark` fails (returning `false`, writing nothing) when no
item has the given id, and when the premium flag is false and the found
file already has 3 or more bookmarks; otherwise (premium, or fewer than 3)
it returns `true` and writes the library with the bookmark appended to
that file, all other items unchanged and in order. -/
theorem addBookmark_spec (premium : Bool) (lib : List LibItem) (id : Str)
    (bm : Bookmark) :
    (lib.find? (fun it => it.id == id) = none →
        addBookmark premium lib id bm = (none, false))
    ∧ (∀ f, lib.find? (fun it => it.id == id) = some f →
        ((premium = false ∧ 3 ≤ f.bookmarks.length) →
            addBookmark premium lib id bm = (none, false))
        ∧ ((premium = true ∨ f.bookmarks.length < 3) →
            addBookmark premium lib id bm = (some (pushBookmark lib id bm), true)))
    ∧ (∀ (pre : List LibItem) (f : LibItem) (post : List LibItem),
        lib = pre ++ f :: post → (∀ x ∈ pre, x.id ≠ id) → f.id = id →
        pushBookmark lib id bm
          = pre ++ { f with bookmarks := f.bookmarks ++ [bm] } :: post) := by
  refine ⟨?_, ?_, ?_⟩
  · intro h
    rw [addBookmark, h]
  · intro f hf
    constructor
    · intro hcond
      rw [addBookmark, hf]
      show (if premium = false ∧ 3 ≤ f.bookmarks.length then ((none : Option (List LibItem)), false)
        else (some (pushBookmark lib id bm), true)) = (none, false)
      rw [if_pos hcond]
    · intro hcond
      rw [addBookmark, hf]
      show (if premium = false ∧ 3 ≤ f.bookmarks.length then ((none : Option (List LibItem)), false)
        else (some (pushBookmark lib id bm), true)) = (some (pushBookmark lib id bm), true)
      rw [if_neg ?hneg]
      case hneg =>
        rintro ⟨hp, hlen⟩
        rcases hcond with hturn | hlt
        · rw [hturn] at hp; cases hp
        · omega
  · intro pre f post hlib hpre hf
    rw [hlib]
    exact pushBookmark_append bm id pre f post hpre hf

/-- C4 witness: adding a bookmark to the only item (free tier, no
bookmarks yet) succeeds and appends it. -/
theorem addBookmark_spec_witness :
    addBookmark false [⟨"a".data, [], 0, []⟩] "a".data ⟨7, "s".data⟩
      = (some [⟨"a".data, [], 0, [⟨7, "s".data⟩]⟩], true) := by
  obtain ⟨-, h2, h3⟩ :=
    addBookmark_spec false [(⟨"a".data, [], 0, []⟩ : LibItem)] "a".data ⟨7, "s".data⟩
  have hf : ([(⟨"a".data, [], 0, []⟩ : LibItem)].find? (fun it => it.id == "a".data))
      = some ⟨"a".data, [], 0, []⟩ := by simp
  have hsucc := (h2 _ hf).2 (Or.inr (by simp))
  have hpush := h3 [] ⟨"a".data, [], 0, []⟩ [] rfl (by simp) rfl
  rw [hsucc, hpush]
  simp

/-- Lowering a basic latin capital adds 32 to its code point. -/
theorem toLower_toNat_of_upper {c : Char} (h1 : 65 ≤ c.toNat) (h2 : c.toNat ≤ 90) :
    (Char.toLower c).toNat = c.toNat + 32 := by
  have hcond : c.toNat ≥ 65 ∧ c.toNat ≤ 90 := ⟨h1, h2⟩
  have hv : (c.toNat + 32).isValidChar := Or.inl (by omega)
  simp only [Char.toLower, if_pos hcond]
  rw [Char.ofNat, dif_pos hv]
  rfl

/-- Lowering with `Char.toLower` is idempotent. -/
theorem toLower_idem (c : Char) : (Char.toLower c).toLower = Char.toLower c := by
  by_cases h : c.toNat ≥ 65 ∧ c.toNat ≤ 90
  · have h1 := toLower_toNat_of_upper h.1 h.2
    have hno : ¬((Char.toLower c).toNat ≥ 65 ∧ (Char.toLower c).toNat ≤ 90) := by
      omega
    conv_lhs => rw [Char.toLower]
    simp only [if_neg hno]
  · have hc : Char.toLower c = c := by
      simp only [Char.toLower, if_neg h]
    rw [hc, hc]

/-- Lowering with `strLower` is idempotent. -/
theorem strLower_idem (s : Str) : strLower (strLower s) = strLower s := by
  simp only [strLower, List.map_map]
  exact List.map_congr_left fun c _ => toLower_idem c

/-- C7 (amended): for an email with no surrounding whitespace
(`jsTrim email = email`), registering against a store without that email
succeeds, and logging in with the same email and password on the
resulting store succeeds with the registered user; logging in with an
email no user has returns failure.  For an email with surrounding
whitespace the round trip breaks (see the counterexample): `register`
stores the trimmed lowercased email but `login` looks up the raw one. -/
theorem register_login_roundtrip (users : List User) (name email password : Str)
    (htrim : jsTrim email = email)
    (hfresh : findUserByEmail users email = none) :
    (register users name email password).2 = true
    ∧ login (register users name email password).1 email password
        = some { name := jsTrim name, email := strLower email,
                 password := hashPassword password, isPremium := false }
    ∧ ∀ (us : List User) (e p : Str),
        (∀ u ∈ us, strLower u.email ≠ strLower e) → login us e p = none := by
  have hreg : register users name email password
      = (users ++ [{ name := jsTrim name, email := strLower email,
                     password := hashPassword password, isPremium := false }], true) := by
    rw [register, hfresh]
    simp only [Option.isSome_none, Bool.false_eq_true, if_false, htrim]
  refine ⟨by rw [hreg], ?_, ?_⟩
  · rw [hreg]
    have hfind : findUserByEmail
        (users ++ [{ name := jsTrim name, email := strLower email,
                     password := hashPassword password, isPremium := false }]) email
        = some { name := jsTrim name, email := strLower email,
                 password := hashPassword password, isPremium := false } := by
      rw [findUserByEmail] at hfresh ⊢
      rw [List.find?_append, hfresh, Option.none_or]
      rw [List.find?_cons_of_pos]
      simp only [strLower_idem, beq_self_eq_true]
    rw [login, hfind]
    simp
  · intro us e p hnone
    have hf : findUserByEmail us e = none := by
      rw [findUserByEmail, List.find?_eq_none]
      intro u hu
      simpa using hnone u hu
    rw [login, hf]

/-- C7 witness: registering `"n"`/`"a@b"`/`"p"` on an empty store and
logging back in succeeds with that user. -/
theorem register_login_roundtrip_witness :
    (register [] "n".data "a@b".data "p".data).2 = true
    ∧ login (register [] "n".data "a@b".data "p".data).1 "a@b".data "p".data
        = some { name := "n".data, email := "a@b".data,
                 password := hashPassword "p".data, isPremium := false } := by
  obtain ⟨h1, h2, -⟩ := register_login_roundtrip [] "n".data "a@b".data "p".data
    (by decide) rfl
  refine ⟨h1, ?_⟩
  rw [h2]
  decide

/-- C7 counterexample: with the email `" a@b"` (leading space),
registration succeeds — the account is stored under the trimmed
lowercased email `"a@b"` — but logging in with the very same email and
password fails, because the lookup compares the lowercased raw email
`" a@b"` against the stored `"a@b"`. -/
theorem register_login_cex :
    (register [] "n".data " a@b".data "p".data).2 = true
    ∧ login (register [] "n".data " a@b".data "p".data).1 " a@b".data "p".data
        = none := by
  constructor
  · decide
  · decide

/-- Pulling the accumulator out of the page-concatenation fold. -/
theorem extractText_foldl_acc (ts : List Str) :
    ∀ acc : Str,
      ts.foldl (fun a t => a ++ t ++ ('\n' :: '\n' :: [])) acc
        = acc ++ ts.foldl (fun a t => a ++ t ++ ('\n' :: '\n' :: [])) [] := by
  induction ts with
  | nil => intro acc; simp
  | cons u us ih =>
    intro acc
    simp only [List.foldl_cons]
    rw [ih (acc ++ u ++ ('\n' :: '\n' :: [])), ih ([] ++ u ++ ('\n' :: '\n' :: []))]
    simp [List.append_assoc]

/-- Unfolding `extractText` in head-tail form. -/
theorem extractText_cons (t : Str) (ts : List Str) :
    extractText (t :: ts) = t ++ ('\n' :: '\n' :: []) ++ extractText ts := by
  rw [extractText, List.foldl_cons, extractText_foldl_acc, extractText]
  simp [List.append_assoc]

/-- C5 (amended): `extractText` joins the per-page texts with blank-line
separators, but the separator follows every page including the last:
the result is `t1 ++ "\n\n" ++ ... ++ tn ++ "\n\n"`, i.e. the spec's
no-trailing-separator join (`joinPages`) plus one trailing separator. -/
theorem extractText_trailing_sep (pageTexts : List Str) (h : pageTexts ≠ []) :
    extractText pageTexts = joinPages pageTexts ++ ('\n' :: '\n' :: []) := by
  induction pageTexts with
  | nil => exact absurd rfl h
  | cons t ts ih =>
    cases ts with
    | nil => simp [extractText, joinPages]
    | cons u us =>
      rw [extractText_cons, ih (by simp)]
      show _ = (t ++ ('\n' :: '\n' :: []) ++ joinPages (u :: us)) ++ ('\n' :: '\n' :: [])
      simp [List.append_assoc]

/-- C5 witness: two pages are joined with separators after each page. -/
theorem extractText_trailing_sep_witness :
    extractText [['a'], ['b']] = 'a' :: '\n' :: '\n' :: 'b' :: '\n' :: '\n' :: [] := by
  have h := extractText_trailing_sep [['a'], ['b']] (by simp)
  rw [h]
  decide

/-- C5 counterexample: for a single page `"a"` the claim's
no-trailing-separator join gives `"a"`, but `extractText` returns
`"a\n\n"` — a trailing blank-line separator. -/
theorem extractText_cex :
    extractText [['a']] = 'a' :: '\n' :: '\n' :: []
    ∧ joinPages [['a']] = ['a'] := by
  constructor
  · decide
  · decide

/-- Applying `dropWhile` over an append: it crosses into the second list only when
it consumes the whole first list. -/
theorem dropWhile_append_split {α : Type} [DecidableEq α] (p : α → Bool) (A B : List α) :
    (A ++ B).dropWhile p
      = if A.dropWhile p = [] then B.dropWhile p else A.dropWhile p ++ B := by
  induction A with
  | nil => simp
  | cons a A ih =>
    by_cases h : p a
    · simp only [List.cons_append, List.dropWhile_cons_of_pos h]
      exact ih
    · simp only [List.cons_append, List.dropWhile_cons_of_neg h]
      rw [if_neg (by simp)]

/-- Head-expansion of `rdropWhile`. -/
theorem rdropWhile_cons_eq {α : Type} [DecidableEq α] (p : α → Bool) (c : α) (t : List α) :
    (c :: t).rdropWhile p
      = if t.rdropWhile p = [] then (if p c then [] else [c])
        else c :: t.rdropWhile p := by
  rw [List.rdropWhile, List.reverse_cons, dropWhile_append_split]
  by_cases h : t.reverse.dropWhile p = []
  · rw [if_pos h]
    have ht : t.rdropWhile p = [] := by rw [List.rdropWhile, h, List.reverse_nil]
    rw [if_pos ht]
    by_cases hc : p c
    · simp [List.dropWhile_cons_of_pos hc, hc]
    · simp [List.dropWhile_cons_of_neg hc, hc]
  · rw [if_neg h]
    have hne : t.rdropWhile p ≠ [] := by
      rw [List.rdropWhile]
      simpa using h
    rw [if_neg hne, List.reverse_append, List.reverse_singleton, List.singleton_append,
      List.rdropWhile]

/-- The drop `rdropWhile` keeps a head the predicate rejects. -/
theorem rdropWhile_cons_neg {α : Type} [DecidableEq α] (p : α → Bool) (c : α) (t : List α)
    (hc : p c = false) :
    (c :: t).rdropWhile p = c :: t.rdropWhile p := by
  rw [rdropWhile_cons_eq]
  by_cases h : t.rdropWhile p = []
  · rw [if_pos h, if_neg (by simp [hc]), h]
  · rw [if_neg h]

/-- The drop `rdropWhile` keeps the head when some later element survives. -/
theorem rdropWhile_cons_of_mem {α : Type} [DecidableEq α] (p : α → Bool) (c : α)
    (t : List α) (h : ∃ x ∈ t, p x = false) :
    (c :: t).rdropWhile p = c :: t.rdropWhile p := by
  rw [rdropWhile_cons_eq, if_neg ?hne]
  case hne =>
    rw [List.rdropWhile_eq_nil_iff]
    rintro hall
    obtain ⟨x, hx, hpx⟩ := h
    rw [hall x hx] at hpx
    cases hpx

/-- Dropping with a weaker predicate after a stronger one is the weaker
drop alone. -/
theorem dropWhile_dropWhile {α : Type} (p q : α → Bool)
    (h : ∀ c, q c = true → p c = true) (s : List α) :
    (s.dropWhile q).dropWhile p = s.dropWhile p := by
  induction s with
  | nil => rfl
  | cons a t ih =>
    by_cases hq : q a
    · rw [List.dropWhile_cons_of_pos hq, ih, List.dropWhile_cons_of_pos (h a hq)]
    · rw [List.dropWhile_cons_of_neg hq]

/-- The right-hand analogue of `dropWhile_dropWhile`. -/
theorem rdropWhile_rdropWhile {α : Type} (p q : α → Bool)
    (h : ∀ c, q c = true → p c = true) (s : List α) :
    (s.rdropWhile q).rdropWhile p = s.rdropWhile p := by
  rw [List.rdropWhile, List.rdropWhile, List.reverse_reverse,
    dropWhile_dropWhile p q h, List.rdropWhile]

/-- Front drops and back drops commute. -/
theorem dropWhile_rdropWhile_comm {α : Type} [DecidableEq α] (p q : α → Bool)
    (s : List α) :
    (s.rdropWhile q).dropWhile p = (s.dropWhile p).rdropWhile q := by
  induction s with
  | nil => rfl
  | cons c t ih =>
    rw [rdropWhile_cons_eq q c t]
    by_cases h : t.rdropWhile q = []
    · rw [if_pos h]
      by_cases hp : p c
      · rw [List.dropWhile_cons_of_pos hp, ← ih, h]
        by_cases hq : q c
        · rw [if_pos hq]
        · rw [if_neg hq, List.dropWhile_cons_of_pos hp]
      · rw [List.dropWhile_cons_of_neg hp, rdropWhile_cons_eq q c t, if_pos h]
        by_cases hq : q c
        · rw [if_pos hq]
          rfl
        · rw [if_neg hq, List.dropWhile_cons_of_neg hp]
    · rw [if_neg h]
      by_cases hp : p c
      · rw [List.dropWhile_cons_of_pos hp, ih, List.dropWhile_cons_of_pos hp]
      · rw [List.dropWhile_cons_of_neg hp, List.dropWhile_cons_of_neg hp,
          rdropWhile_cons_eq q c t, if_neg h]

/-- Every newline is `trim` whitespace. -/
theorem isNl_isWs : ∀ c : Char, isNl c = true → isWs c = true := by
  intro c hc
  have : c = '\n' := by simpa [isNl] using hc
  subst this
  decide

/-- Trimming is unchanged by first dropping leading newlines. -/
theorem jsTrim_dropWhile_nl (t : Str) : jsTrim (t.dropWhile isNl) = jsTrim t := by
  rw [jsTrim, jsTrim, dropWhile_dropWhile isWs isNl isNl_isWs]

/-- Trimming is unchanged by first dropping trailing newlines. -/
theorem jsTrim_rdropWhile_nl (t : Str) : jsTrim (t.rdropWhile isNl) = jsTrim t := by
  rw [jsTrim, jsTrim, dropWhile_rdropWhile_comm isWs isNl,
    rdropWhile_rdropWhile isWs isNl isNl_isWs]

/-- Blank-freedom (`noBlankB`) restricts to the tail. -/
theorem noBlankB_tail {c : Char} {t : Str} (h : noBlankB (c :: t) = true) :
    noBlankB t = true := by
  cases t with
  | nil => rfl
  | cons c2 t2 =>
    rw [noBlankB, Bool.and_eq_true] at h
    exact h.2

/-- Blank-freedom (`noBlankB`) survives dropping leading newlines. -/
theorem noBlankB_dropWhile (t : Str) (h : noBlankB t = true) :
    noBlankB (t.dropWhile isNl) = true := by
  induction t with
  | nil => rfl
  | cons c t ih =>
    by_cases hc : isNl c
    · rw [List.dropWhile_cons_of_pos hc]
      exact ih (noBlankB_tail h)
    · rw [List.dropWhile_cons_of_neg hc]
      exact h

/-- One-step unfolding of `splitBlankAux` on a two-or-more element list. -/
theorem splitBlankAux_cons2 (c1 c2 : Char) (rest acc : Str) :
    splitBlankAux (c1 :: c2 :: rest) acc
      = if c1 = '\n' ∧ c2 = '\n' then
          acc.reverse :: splitBlankAux (rest.dropWhile isNl) []
        else splitBlankAux (c2 :: rest) (c1 :: acc) := by
  rw [splitBlankAux]

/-- One splitting step: a blank-free block followed by a blank-line
separator yields one piece (the block, trailing newlines merged into the
separator) and the scan restarts after the separator's newline run. -/
theorem splitBlankAux_sep (t : Str) (hnb : noBlankB t = true) :
    ∀ (rest acc : Str),
      splitBlankAux (t ++ '\n' :: '\n' :: rest) acc
        = (acc.reverse ++ t.rdropWhile isNl) :: splitBlankAux (rest.dropWhile isNl) [] := by
  induction t with
  | nil =>
    intro rest acc
    simp only [List.nil_append]
    rw [splitBlankAux_cons2, if_pos ⟨rfl, rfl⟩]
    simp [List.rdropWhile]
  | cons c t' ih =>
    intro rest acc
    by_cases hc : c = '\n'
    · subst hc
      cases t' with
      | nil =>
        simp only [List.cons_append, List.nil_append]
        rw [splitBlankAux_cons2, if_pos ⟨rfl, rfl⟩]
        rw [List.dropWhile_cons_of_pos (show isNl '\n' = true by decide)]
        have hr : (['\n'] : Str).rdropWhile isNl = [] := by decide
        rw [hr, List.append_nil]
      | cons c2 t'' =>
        have hc2 : ¬(c2 = '\n') := by
          intro h2
          subst h2
          simp [noBlankB] at hnb
        simp only [List.cons_append]
        rw [splitBlankAux_cons2, if_neg (by rintro ⟨-, h2⟩; exact hc2 h2)]
        have ihh := ih (noBlankB_tail hnb) rest ('\n' :: acc)
        simp only [List.cons_append] at ihh
        rw [ihh]
        have hr : ('\n' :: c2 :: t'').rdropWhile isNl
            = '\n' :: (c2 :: t'').rdropWhile isNl :=
          rdropWhile_cons_of_mem isNl '\n' (c2 :: t'')
            ⟨c2, by simp, by simpa [isNl] using hc2⟩
        rw [hr, List.reverse_cons]
        simp [List.append_assoc]
    · have hcf : isNl c = false := by simpa [isNl] using hc
      cases t' with
      | nil =>
        simp only [List.cons_append, List.nil_append]
        rw [splitBlankAux_cons2, if_neg (by rintro ⟨h1, -⟩; exact hc h1)]
        have ihh := ih rfl rest (c :: acc)
        simp only [List.nil_append] at ihh
        rw [ihh]
        have hr : ([c] : Str).rdropWhile isNl = [c] := by
          rw [rdropWhile_cons_neg isNl c [] hcf]
          rfl
        rw [hr, List.reverse_cons]
        simp [List.append_assoc]
      | cons c2 t'' =>
        simp only [List.cons_append]
        rw [splitBlankAux_cons2, if_neg (by rintro ⟨h1, -⟩; exact hc h1)]
        have ihh := ih (noBlankB_tail hnb) rest (c :: acc)
        simp only [List.cons_append] at ihh
        rw [ihh]
        rw [rdropWhile_cons_neg isNl c (c2 :: t'') hcf, List.reverse_cons]
        simp [List.append_assoc]

/-- Splitting the joined pages, scanning after a separator: each later
page (with at least one non-newline character and no blank line) appears
as one piece, and the trailing separator contributes a final empty
piece. -/
theorem splitBlank_join_tail (ts : List Str)
    (h : ∀ t ∈ ts, noBlankB t = true ∧ t.any (fun c => !(isNl c)) = true) :
    splitBlankAux ((extractText ts).dropWhile isNl) []
      = ts.map (fun t => (t.dropWhile isNl).rdropWhile isNl) ++ [[]] := by
  induction ts with
  | nil =>
    show splitBlankAux [] [] = [[]]
    rw [splitBlankAux]
    rfl
  | cons u us ih =>
    obtain ⟨hnb, hany⟩ := h u (by simp)
    have hA : u.dropWhile isNl ≠ [] := by
      rw [ne_eq, List.dropWhile_eq_nil_iff]
      intro hall
      obtain ⟨c, hc, hpc⟩ := List.any_eq_true.mp hany
      rw [hall c hc] at hpc
      cases hpc
    rw [extractText_cons,
      show u ++ ('\n' :: '\n' :: []) ++ extractText us
        = u ++ ('\n' :: '\n' :: extractText us) from by simp,
      dropWhile_append_split, if_neg hA]
    rw [splitBlankAux_sep (u.dropWhile isNl) (noBlankB_dropWhile u hnb)
      (extractText us) []]
    rw [ih (fun t ht => h t (by simp [ht]))]
    simp

/-- C6 (amended): reconstruction adds one trailing empty page.  For a
non-empty list of pages, each containing no blank line and at least one
non-newline character, loading the extracted text back splits it into the
original pages (each trimmed, as `loadFromLibrary` trims) followed by one
extra empty page coming from the trailing separator: `totalPages` is the
original page count plus one.  (A page of newlines only would merge into
the separators, hence the non-newline-character hypothesis.) -/
theorem loadFromLibrary_inverse (ts : List Str) (hne : ts ≠ [])
    (h : ∀ t ∈ ts, noBlankB t = true ∧ t.any (fun c => !(isNl c)) = true) :
    reconstructPages (extractText ts) = ts.map jsTrim ++ [[]]
    ∧ reconstructTotalPages (extractText ts) = ts.length + 1 := by
  have hkey : splitBlank (extractText ts)
      = (match ts with
         | [] => [[]]
         | u :: us => u.rdropWhile isNl
             :: (us.map (fun t => (t.dropWhile isNl).rdropWhile isNl) ++ [[]])) := by
    cases ts with
    | nil => exact absurd rfl hne
    | cons u us =>
      obtain ⟨hnb, -⟩ := h u (by simp)
      rw [splitBlank, extractText_cons,
        show u ++ ('\n' :: '\n' :: []) ++ extractText us
          = u ++ ('\n' :: '\n' :: extractText us) from by simp,
        splitBlankAux_sep u hnb (extractText us) []]
      rw [splitBlank_join_tail us (fun t ht => h t (by simp [ht]))]
      simp
  cases ts with
  | nil => exact absurd rfl hne
  | cons u us =>
    constructor
    · rw [reconstructPages, hkey]
      simp only [List.map_cons, List.map_append, List.map_map]
      rw [jsTrim_rdropWhile_nl]
      have hmap : us.map (jsTrim ∘ fun t => (t.dropWhile isNl).rdropWhile isNl)
          = us.map jsTrim := by
        refine List.map_congr_left fun t _ => ?_
        show jsTrim ((t.dropWhile isNl).rdropWhile isNl) = jsTrim t
        rw [jsTrim_rdropWhile_nl, jsTrim_dropWhile_nl]
      rw [hmap]
      rfl
    · rw [reconstructTotalPages, reconstructPages, hkey]
      simp

/-- C6 witness: two one-character pages round-trip into themselves plus
one empty page; `totalPages` is 3, the page count plus one. -/
theorem loadFromLibrary_inverse_witness :
    reconstructPages (extractText [['a'], ['b']]) = [['a'], ['b'], []]
    ∧ reconstructTotalPages (extractText [['a'], ['b']]) = 3 := by
  obtain ⟨h1, h2⟩ := loadFromLibrary_inverse [['a'], ['b']] (by simp) (by decide)
  constructor
  · rw [h1]
    decide
  · rw [h2]
    rfl

/-- C6 counterexample: for the single page `"a"` the cached text is
`"a\n\n"`, which `loadFromLibrary` splits into the page `"a"` plus an
empty page: `totalPages` is 2, not the original page count 1. -/
theorem loadFromLibrary_inverse_cex :
    reconstructTotalPages (extractText [['a']]) = 2 := by
  norm_num [reconstructTotalPages, reconstructPages, splitBlank, extractText,
    splitBlankAux, isNl]
  rw [if_neg (show ¬('a' = '\n') by decide)]
  rfl
